import Mathlib

/-!
Shallow embedding of the post-processing pipeline of `src/app.py`
(Creative Risk Auditor): the score→level classifier, the policy
filter (`sanitize_lines` / `strip_circled`), the aggregator
(`overall_from_text_image`), the hotspot geometry engine
(`dedupe_hotspots` with `_bbox`, `_area`, `_iou`, `_centerdist`,
`_merge`) and the caption span matcher (`highlight_caption` with
`_extract_spans_from_flags`, `_find_all_ranges`, `_merge_ranges`).

Modelling conventions:
* Python strings are `List Char`; `str.lower()` is modelled with
  `Char.toLower` (exact on ASCII, which covers every cased character
  occurring in the fixed keyword lists and markup of the source).
* Python floats are modelled as `ℚ`; every float operation used by the
  source (`+ - * /` with an explicit `union > 0` guard, `max`, `min`,
  comparisons) is exact, except `math.hypot` whose comparison against
  the constant `0.12` is modelled by comparing squares
  (`hypot a b < t ↔ a² + b² < t²` for `t ≥ 0`).
* A Python `dict` hotspot is a `Hotspot` record; a key that may be
  absent (or `None`-like) is an `Option` field, and string fields for
  which the source only tests truthiness (`label`, `severity`,
  `shape`, `span`) use `[]` for "absent or empty".
* Python `set` iteration order is unspecified; `[*{*xs}]` is modelled
  by `dedupKeepFirst`, which realises one concrete order.  Every
  theorem below that touches such a value only uses properties that
  are independent of that order (element sets, duplicate counts on
  inputs where the set part is a singleton).
-/

namespace CRA

/-- Python's `\s` / `str.strip()` whitespace class (ASCII whitespace
plus the Unicode space characters). -/
def isPySpace (c : Char) : Bool :=
  let n := c.toNat
  (9 ≤ n && n ≤ 13) || n == 32 || n == 0x85 || n == 0xA0 || n == 0x1680 ||
    (0x2000 ≤ n && n ≤ 0x200A) || n == 0x2028 || n == 0x2029 ||
    n == 0x202F || n == 0x205F || n == 0x3000

/-- The character class `CIRCLED_RANGE = [①-⑳⓵-⓾❶-❿]`
of `app.py` line 127. -/
def isCircled (c : Char) : Bool :=
  let n := c.toNat
  (0x2460 ≤ n && n ≤ 0x2473) || (0x24F5 ≤ n && n ≤ 0x24FE) ||
    (0x2776 ≤ n && n ≤ 0x277F)

/-- One left-to-right pass of the whitespace-collapsing substitution
of `strip_circled`: every maximal run of two or more whitespace
characters becomes one space character; a run of length one is kept
unchanged.  The `Bool` state records whether we
are inside the remainder of an already-collapsed run. -/
def collapseGo : Bool → List Char → List Char
  | _, [] => []
  | true, c :: cs => if isPySpace c then collapseGo true cs else c :: collapseGo false cs
  | false, c :: cs =>
    if isPySpace c then
      match cs with
      | [] => [c]
      | c2 :: cs2 =>
        if isPySpace c2 then ' ' :: collapseGo true (c2 :: cs2)
        else c :: collapseGo false (c2 :: cs2)
    else c :: collapseGo false cs

/-- Model of the left half of Python `str.strip()`. -/
def ltrim (l : List Char) : List Char := l.dropWhile isPySpace

/-- Model of the right half of Python `str.strip()`. -/
def rtrim (l : List Char) : List Char := (l.reverse.dropWhile isPySpace).reverse

/-- Python `str.strip()`. -/
def pyStrip (l : List Char) : List Char := rtrim (ltrim l)

/-- Model of `strip_circled` (app.py lines 129-134): delete the circled-digit
characters, collapse whitespace runs, strip.  (On the empty string the
early `if not text: return ""` branch coincides with the pipeline.) -/
def strip_circled (l : List Char) : List Char :=
  pyStrip (collapseGo false (l.filter (fun c => !(isCircled c))))

/-- Model of `PERF_KEYWORDS` (app.py lines 137-169). -/
def PERF_KEYWORDS : List (List Char) :=
  ["전환".data, "전환율".data, "컨버전".data, "conversion".data, "CVR".data,
   "구매율".data, "매출".data, "Revenue".data, "ROAS".data, "CPA".data,
   "CAC".data, "클릭".data, "클릭률".data, "CTR".data, "도달".data,
   "노출수".data, "impression".data, "reach".data, "브랜딩".data,
   "브랜드 리프트".data, "성과".data, "퍼포먼스".data, "효율".data,
   "효과".data, "전략적".data, "성장률".data, "KPI".data, "트래픽".data,
   "세션".data, "리텐션".data, "재방문".data]

/-- Python `str.lower()` (ASCII-exact, see header). -/
def lowerL (l : List Char) : List Char := l.map Char.toLower

/-- Test that `nd` occurs at the very start of the second list. -/
def leadsWith : List Char → List Char → Bool
  | [], _ => true
  | _ :: _, [] => false
  | a :: as, b :: bs => a == b && leadsWith as bs

/-- Python's substring test `nd in hay`. -/
def occursIn (nd : List Char) : List Char → Bool
  | [] => nd.isEmpty
  | c :: t => leadsWith nd (c :: t) || occursIn nd t

/-- Model of `_looks_performance` (app.py lines 171-176). -/
def _looks_performance (t : List Char) : Bool :=
  PERF_KEYWORDS.any (fun kw => occursIn (lowerL kw) (lowerL t))

/-- The fixed fallback line of `sanitize_lines` (app.py lines 189-191). -/
def FALLBACK : List Char :=
  "해당 항목은 성과·효율과 무관하게, 현재 기준에서 뚜렷한 논란·문제 소지가 확인되지 않습니다.".data

/-- The per-line body of the `sanitize_lines` loop: strip, drop if
empty, drop if performance-related, keep the stripped line. -/
def sanStep (x : List Char) : Option (List Char) :=
  let t := strip_circled x
  if t = [] then none
  else if _looks_performance t then none
  else some t

/-- Model of `sanitize_lines` (app.py lines 178-192). -/
def sanitize_lines (lines : List (List Char)) : List (List Char) :=
  let outs := lines.filterMap sanStep
  if outs = [] then [FALLBACK] else outs

/-- Model of `PALETTE` (app.py lines 303-309). -/
def PALETTE : List (String × String) :=
  [("매우 안전", "#16A34A"), ("안전", "#65A30D"), ("주의", "#D97706"),
   ("위험", "#F59E0B"), ("매우 위험", "#FF1F1F")]

/-- Model of `LEVELS` (app.py lines 310-316). -/
def LEVELS : List (Int × Int × String) :=
  [(21, 25, "매우 안전"), (16, 20, "안전"), (11, 15, "주의"),
   (6, 10, "위험"), (0, 5, "매우 위험")]

/-- The clamp `max(0, min(25, int(score)))` of `level_of`. -/
def clampScore (s : Int) : Int := max 0 (min 25 s)

/-- Model of `level_of` (app.py lines 318-323): scan `LEVELS` in order, return
the first band containing the clamped score, else the sentinel. -/
def level_of (score : Int) : String :=
  match LEVELS.find? (fun b =>
      decide (b.1 ≤ clampScore score) && decide (clampScore score ≤ b.2.1)) with
  | some b => b.2.2
  | none => "—"

/-- Model of `PALETTE.get(k, "#6B7280")`. -/
def paletteGet (k : String) : String :=
  ((PALETTE.find? (fun p => p.1 == k)).map (·.2)).getD "#6B7280"

/-- Model of `level_color` (app.py lines 325-326). -/
def level_color (score : Int) : String := paletteGet (level_of score)

/-- One axis-assessment dict, as read by `overall_from_text_image`:
`name` and `score` may be absent (`d.get(...)` with defaults). -/
structure Dim where
  name : Option String
  score : Option Int
  why : List (List Char)
  edits : List (List Char)
  checks : List (List Char)
deriving DecidableEq

/-- The sort key `int(d.get("score", 0))` of `min_dim`. -/
def dimScore (d : Dim) : Int := d.score.getD 0

/-- Python `min(dims, key=...)`: left fold keeping the first element on
ties (`min` only replaces on strictly smaller key). -/
def minBy : Dim → List Dim → Dim
  | m, [] => m
  | m, d :: ds => if dimScore d < dimScore m then minBy d ds else minBy m ds

/-- The inner `min_dim` of `overall_from_text_image` (app.py lines
333-341): `(name, score, level)` of the minimum-score dim, or the
sentinel `("", 25, "—")` on an empty list. -/
def min_dim : List Dim → String × Int × String
  | [] => ("", 25, "—")
  | d :: ds =>
    let m := minBy d ds
    (m.name.getD "", dimScore m, level_of (dimScore m))

/-- The result dict of `overall_from_text_image`. -/
structure Overall where
  level : String
  worst_axis : String
  worst_src : String
  worst_score : Int
  bg : String
  emoji : String
  summary : String
deriving DecidableEq

/-- Model of `overall_from_text_image` (app.py lines 332-388). -/
def overall_from_text_image (text_dims image_dims : List Dim) : Overall :=
  let t := min_dim text_dims
  let i := min_dim image_dims
  let w : String × String × Int :=
    if t.2.1 ≤ i.2.1 then ("텍스트", t.1, t.2.1) else ("이미지", i.1, i.2.1)
  let worst_src := w.1
  let worst_axis := w.2.1
  let worst_score := w.2.2
  let lvl := level_of worst_score
  let bes : String × String × String :=
    if lvl = "매우 위험" then
      (paletteGet "매우 위험", "🛑",
       worst_axis ++ " 측면에서 (" ++ worst_src ++ " 내) 매우 큰 리스크가 있습니다.")
    else if lvl = "위험" then
      (paletteGet "위험", "⚠️",
       worst_axis ++ " 측면에서 (" ++ worst_src ++ " 내) 유의미한 리스크가 있습니다.")
    else if lvl = "주의" then
      (paletteGet "주의", "⚠️",
       worst_axis ++ " 측면에서 (" ++ worst_src ++ " 내) 주의 신호가 있습니다.")
    else if lvl = "안전" then
      (paletteGet "안전", "✅", "전반적으로 안전 수준입니다. 최소 안전 점수 16점 이상.")
    else
      (paletteGet "매우 안전", "✅", "전반적으로 매우 안전합니다. 모든 축이 21점 이상.")
  { level := lvl, worst_axis := worst_axis, worst_src := worst_src,
    worst_score := worst_score, bg := bes.1, emoji := bes.2.1, summary := bes.2.2 }

/-- One hotspot dict as consumed by the geometry engine.  Geometry
keys may be absent (`Option ℚ`); `shape`, `label`, `severity` use `[]`
for Python-falsy (absent or empty string); `risks` /
`suggested_edits` default to `[]` via `h.get(...) or []`. -/
structure Hotspot where
  shape : List Char
  x : Option ℚ
  y : Option ℚ
  w : Option ℚ
  h : Option ℚ
  cx : Option ℚ
  cy : Option ℚ
  r : Option ℚ
  label : List Char
  severity : List Char
  risks : List (List Char)
  suggested_edits : List (List Char)
deriving DecidableEq

/-- An axis-aligned bounding box `(x1, y1, x2, y2)`. -/
structure BBox where
  x1 : ℚ
  y1 : ℚ
  x2 : ℚ
  y2 : ℚ
deriving DecidableEq

/-- Model of `_bbox` (app.py lines 391-401): rect `(x, y, x+w, y+h)`, otherwise
circle `(cx-r, cy-r, cx+r, cy+r)` with defaults `cx=cy=0.5`, `r=0.1`. -/
def _bbox (hs : Hotspot) : BBox :=
  if lowerL (if hs.shape = [] then "circle".data else hs.shape) = "rect".data then
    let x := hs.x.getD 0
    let y := hs.y.getD 0
    let w := hs.w.getD 0
    let hgt := hs.h.getD 0
    ⟨x, y, x + w, y + hgt⟩
  else
    let cx := hs.cx.getD (1/2)
    let cy := hs.cy.getD (1/2)
    let r := hs.r.getD (1/10)
    ⟨cx - r, cy - r, cx + r, cy + r⟩

/-- Model of `_area` (app.py lines 403-404). -/
def _area (b : BBox) : ℚ := max 0 (b.x2 - b.x1) * max 0 (b.y2 - b.y1)

/-- Model of `_iou` (app.py lines 406-415); `union > 0` guard included. -/
def _iou (b1 b2 : BBox) : ℚ :=
  let ix1 := max b1.x1 b2.x1
  let iy1 := max b1.y1 b2.y1
  let ix2 := min b1.x2 b2.x2
  let iy2 := min b1.y2 b2.y2
  let iw := max 0 (ix2 - ix1)
  let ih := max 0 (iy2 - iy1)
  let inter := iw * ih
  let union := _area b1 + _area b2 - inter
  if 0 < union then inter / union else 0

/-- The square of `_centerdist` (app.py lines 417-420); `math.hypot`
is modelled through its square, see the header. -/
def _centerdist_sq (b1 b2 : BBox) : ℚ :=
  let c1x := (b1.x1 + b1.x2) / 2
  let c1y := (b1.y1 + b1.y2) / 2
  let c2x := (b2.x1 + b2.x2) / 2
  let c2y := (b2.y1 + b2.y2) / 2
  (c1x - c2x) ^ 2 + (c1y - c2y) ^ 2

/-- The merge test of the dedupe loop (app.py line 444):
`_iou(b, bk) > 0.55 or _centerdist(b, bk) < 0.12`, with the distance
comparison squared (`0.12² = 9/625`). -/
def hotMatch (b bk : BBox) : Bool :=
  decide ((11 : ℚ) / 20 < _iou b bk) || decide (_centerdist_sq b bk < 9 / 625)

/-- Keep-first deduplication; realises one iteration order of a Python
`set` built from a list (see header). -/
def dedupKeepFirst {α : Type _} [DecidableEq α] : List α → List α
  | [] => []
  | x :: xs => x :: (dedupKeepFirst xs).filter (fun y => decide (y ≠ x))

/-- Model of `_merge` (app.py lines 422-433).  Note the source text:
`out["suggested_edits"] = [*{*(out.get("suggested_edits") or [])},
*(b.get("suggested_edits") or [])]` — only the kept entry's edits go
through the set; the incoming entry's are appended verbatim. -/
def _merge (a b : Hotspot) : Hotspot :=
  { a with
    risks := dedupKeepFirst (a.risks ++ b.risks),
    suggested_edits := dedupKeepFirst a.suggested_edits ++ b.suggested_edits,
    label := if a.label = [] ∧ b.label ≠ [] then b.label else a.label,
    severity := if a.severity = [] ∧ b.severity ≠ [] then b.severity else a.severity }

/-- The clamp `max(0.0, min(1.0, v))` of the dedupe loop. -/
def clampQ (v : ℚ) : ℚ := max 0 (min 1 v)

/-- Clamping of every present geometry key (app.py lines 449-456).
On numeric values `float(...)` never raises, so the `try`/`except` is
the identity path. -/
def clampHot (hs : Hotspot) : Hotspot :=
  { hs with
    x := hs.x.map clampQ, y := hs.y.map clampQ, w := hs.w.map clampQ,
    h := hs.h.map clampQ, cx := hs.cx.map clampQ, cy := hs.cy.map clampQ,
    r := hs.r.map clampQ }

/-- One element of the untyped `hotspots` list: a dict or anything
else (string, number, `None`, ...), for which `isinstance(h, dict)`
is `False`. -/
inductive Entry where
  | dict (h : Hotspot)
  | nonDict
deriving DecidableEq

def Entry.toHot : Entry → Option Hotspot
  | .dict h => some h
  | .nonDict => none

def Entry.isDict : Entry → Bool
  | .dict _ => true
  | .nonDict => false

/-- The sort key direction of `sorted(hs, key=lambda h: _area(_bbox(h)),
reverse=True)`: `a` may stay before `b` iff `area a ≥ area b`; both
Python's stable sort with `reverse=True` and `List.mergeSort` keep the
input order of key-equal elements. -/
def areaDesc (a b : Hotspot) : Bool := decide (_area (_bbox b) ≤ _area (_bbox a))

/-- The inner scan of the dedupe loop (app.py lines 442-447): merge
the incoming hotspot into the first kept entry it matches. -/
def tryMerge (h : Hotspot) : List Hotspot → Option (List Hotspot)
  | [] => none
  | k :: ks =>
    if hotMatch (_bbox h) (_bbox k) then some (_merge k h :: ks)
    else (tryMerge h ks).map (fun l => k :: l)

/-- One iteration of the dedupe loop body (app.py lines 439-457). -/
def dedupeStep (kept : List Hotspot) (h : Hotspot) : List Hotspot :=
  match tryMerge h kept with
  | some kept2 => kept2
  | none => kept ++ [clampHot h]

/-- Model of `dedupe_hotspots` (app.py lines 435-458). -/
def dedupe_hotspots (l : List Entry) : List Hotspot :=
  let hs := l.filterMap Entry.toHot
  let hs_sorted := hs.mergeSort areaDesc
  (hs_sorted.foldl dedupeStep []).take 12

/-- One caption flag dict: `span` uses `[]` for Python-falsy. -/
structure Flag where
  span : List Char
  issues : List (List Char)
  edits : List (List Char)
deriving DecidableEq

/-- The straight single quote, written by code point. -/
def squote : Char := Char.ofNat 39

/-- The quote class of the regex in `_extract_spans_from_flags`
(app.py line 595): the two curly double quotes, the straight double
quote and the straight single quote. -/
def isQuote (c : Char) : Bool := c == '"' || c == squote || c == '“' || c == '”'

/-- Left-to-right scan of the quoted-group findall regex of
`_extract_spans_from_flags` (quote, one or more non-quotes, quote):
`none` = outside any span; `some acc` = an opening quote has been
consumed and `acc` holds the non-quote characters read since.  A quote
read in state `some []` re-opens (the engine's retry after a failed
match at the previous quote); a quote read in state `some (c :: _)`
closes and emits the group, scanning resumes after it. -/
def fqGo : Option (List Char) → List Char → List (List Char)
  | _, [] => []
  | none, c :: cs => if isQuote c then fqGo (some []) cs else fqGo none cs
  | some acc, c :: cs =>
    if isQuote c then
      if acc = [] then fqGo (some []) cs
      else acc :: fqGo none cs
    else fqGo (some (acc ++ [c])) cs

/-- All quote-delimited groups of a string, in match order. -/
def findQuoted (l : List Char) : List (List Char) := fqGo none l

/-- Model of `_extract_spans_from_flags` (app.py lines 588-600): span fields
and quoted substrings of issues, stripped, deduplicated (Python `set`,
see header), kept only if at least two characters, sorted by
descending length. -/
def _extract_spans_from_flags (flags : List Flag) : List (List Char) :=
  let collected := (flags.map (fun f =>
    (let s := pyStrip f.span; if s = [] then [] else [s]) ++
    (f.issues.map (fun iss =>
      (findQuoted iss).filterMap (fun m =>
        let t := pyStrip m
        if t = [] then none else some t))).flatten)).flatten
  ((dedupKeepFirst collected).filter (fun s => decide (2 ≤ s.length))).mergeSort
    (fun a b => decide (b.length ≤ a.length))

/-- Case-insensitive match of `nd` at the start of the second list
(models the `re.escape(needle)` + `re.IGNORECASE` literal pattern). -/
def matchCI : List Char → List Char → Bool
  | [], _ => true
  | _ :: _, [] => false
  | a :: as, b :: bs => (a.toLower == b.toLower) && matchCI as bs

/-- Model of `pattern.finditer(text)` for a literal case-insensitive pattern:
report `(i, i + |nd|)` at each match and resume after it (matches do
not overlap), else advance one character. -/
def faGo (nd : List Char) : List Char → Nat → List (Nat × Nat)
  | [], _ => []
  | c :: cs, i =>
    if matchCI nd (c :: cs) && decide (nd ≠ []) then
      (i, i + nd.length) :: faGo nd (cs.drop (nd.length - 1)) (i + nd.length)
    else faGo nd cs (i + 1)
termination_by l _ => l.length
decreasing_by
· simp only [List.length_cons, List.length_drop]
  omega
· simp only [List.length_cons]
  omega

/-- Model of `_find_all_ranges` (app.py lines 602-609). -/
def _find_all_ranges (text nd : List Char) : List (Nat × Nat) :=
  if nd = [] then [] else faGo nd text 0

/-- Python `list.sort()` order on `(start, end)` pairs: lexicographic. -/
def rangeLe (a b : Nat × Nat) : Bool :=
  decide (a.1 < b.1) || (decide (a.1 = b.1) && decide (a.2 ≤ b.2))

/-- The fold of `_merge_ranges` (app.py lines 615-622): extend the
last kept range while starts touch it, else emit it. -/
def mrGo (cur : Nat × Nat) : List (Nat × Nat) → List (Nat × Nat)
  | [] => [cur]
  | (s, e) :: rest =>
    if s ≤ cur.2 then mrGo (cur.1, max cur.2 e) rest else cur :: mrGo (s, e) rest

/-- Model of `_merge_ranges` (app.py lines 611-622). -/
def _merge_ranges (rs : List (Nat × Nat)) : List (Nat × Nat) :=
  match rs.mergeSort rangeLe with
  | [] => []
  | r :: rest => mrGo r rest

/-- Model of `html.escape(s)` (quote=True), one character at a time; the
sequential `str.replace` chain of the library function replaces `&`
first, which coincides with this character map. -/
def escChar (c : Char) : List Char :=
  if c == '&' then "&amp;".data
  else if c == '<' then "&lt;".data
  else if c == '>' then "&gt;".data
  else if c == '"' then "&quot;".data
  else if c == squote then "&#x27;".data
  else [c]

/-- Model of `html.escape` on a whole string. -/
def htmlEscape (l : List Char) : List Char := (l.map escChar).flatten

/-- The opening div wrapper markup of the highlighted caption, with
its single quotes written by code point. -/
def divOpen : List Char :=
  "<div class=".data ++ [squote] ++ "caption-strong".data ++ [squote] ++ ">".data

def divClose : List Char := "</div>".data

/-- The opening span wrapper markup of a highlighted segment. -/
def spanOpen : List Char :=
  "<span class=".data ++ [squote] ++ "caption-flag".data ++ [squote] ++ ">".data

def spanClose : List Char := "</span>".data

/-- Python slice `l[a:b]` (for `a ≤ b` within bounds). -/
def sliceL (l : List Char) (a b : Nat) : List Char := (l.drop a).take (b - a)

/-- The parts loop of `highlight_caption` (app.py lines 635-643),
with the running `last` offset made explicit. -/
def buildParts (orig : List Char) : Nat → List (Nat × Nat) → List Char
  | last, [] => if last < orig.length then htmlEscape (orig.drop last) else []
  | last, (s, e) :: rest =>
    (if last < s then htmlEscape (sliceL orig last s) else []) ++
    spanOpen ++ htmlEscape (sliceL orig s e) ++ spanClose ++ buildParts orig e rest

/-- Model of `highlight_caption` (app.py lines 624-645). -/
def highlight_caption (text : List Char) (flags : List Flag) : List Char :=
  let original := text
  let spans := _extract_spans_from_flags flags
  let raw := (spans.map (fun sp => _find_all_ranges original sp)).flatten
  let all_ranges := _merge_ranges raw
  if all_ranges = [] then divOpen ++ htmlEscape original ++ divClose
  else divOpen ++ buildParts original 0 all_ranges ++ divClose

/-- No two adjacent whitespace characters (the shape of a string after
one whitespace-collapse pass). -/
def noWsPair (a b : Char) : Prop := isPySpace a = false ∨ isPySpace b = false

/-- The bound `0 ≤ v ≤ 1` on a present optional value. -/
def optIn01b (o : Option ℚ) : Bool := o.all (fun v => decide (0 ≤ v) && decide (v ≤ 1))

/-- Every geometry key present on the hotspot lies in [0, 1]. -/
def geomIn01b (hs : Hotspot) : Bool :=
  optIn01b hs.x && optIn01b hs.y && optIn01b hs.w && optIn01b hs.h &&
  optIn01b hs.cx && optIn01b hs.cy && optIn01b hs.r

/-- Scanner for escaped text: no raw `<` or `>`, and every `&` starts
one of the five entities that `html.escape` emits. -/
def escOK : List Char → Bool
  | [] => true
  | c :: cs =>
    if c == '<' || c == '>' then false
    else if c == '&' then
      (leadsWith "amp;".data cs || leadsWith "lt;".data cs || leadsWith "gt;".data cs ||
        leadsWith "quot;".data cs || leadsWith "#x27;".data cs) && escOK cs
    else escOK cs

/-- Rendering of one literal segment of the caption: a highlighted
segment is wrapped in the span markup, a plain one is inserted bare;
in both cases the text itself is HTML-escaped first. -/
def renderSeg (seg : Bool × List Char) : List Char :=
  if seg.1 then spanOpen ++ htmlEscape seg.2 ++ spanClose else htmlEscape seg.2

/-- The segmentation of the original text induced by the merged
highlight ranges: alternating plain slices and highlighted slices. -/
def segify (orig : List Char) : Nat → List (Nat × Nat) → List (Bool × List Char)
  | last, [] => if last < orig.length then [(false, orig.drop last)] else []
  | last, (s, e) :: rest =>
    (if last < s then [(false, sliceL orig last s)] else []) ++
    (true, sliceL orig s e) :: segify orig e rest

/-- Predicate: `s` occurs in `iss` strictly between two recognized quote
characters — not necessarily a matching pair — and contains no quote
character itself. -/
def QuoteDelimited (s iss : List Char) : Prop :=
  s ≠ [] ∧ (∀ c ∈ s, isQuote c = false) ∧
  ∃ l q1 q2 r, isQuote q1 = true ∧ isQuote q2 = true ∧ iss = l ++ q1 :: (s ++ q2 :: r)

/-! Concrete inputs used by the evaluation theorems below. -/

/-- A kept hotspot: circle at (0.5, 0.5), r = 0.1, with a label, a
severity, one risk and one suggested edit. -/
def hotA : Hotspot :=
  { shape := [], x := none, y := none, w := none, h := none,
    cx := some (1/2), cy := some (1/2), r := some (1/10),
    label := "로고".data, severity := "주의".data,
    risks := ["차별 오해 소지".data], suggested_edits := ["문구 수정".data] }

/-- An incoming hotspot with the same geometry as `hotA` (so the two
match by IoU), sharing one risk and the suggested edit of `hotA`. -/
def hotB : Hotspot :=
  { shape := [], x := none, y := none, w := none, h := none,
    cx := some (1/2), cy := some (1/2), r := some (1/10),
    label := [], severity := [],
    risks := ["차별 오해 소지".data, "정치적 민감성".data],
    suggested_edits := ["문구 수정".data] }

/-- A rect hotspot at `(x, y)` with width `w` and height 0.01. -/
def mkRect (x y w : ℚ) : Hotspot :=
  { shape := "rect".data, x := some x, y := some y, w := some w, h := some (1/100),
    cx := none, cy := none, r := none, label := [], severity := [],
    risks := [], suggested_edits := [] }

/-- 14 pairwise non-matching rect hotspots with pairwise distinct
bounding-box areas (widths 0.01 … 0.14), laid out on a grid with
centers ≥ 0.185 apart and disjoint boxes, all inside the unit square. -/
def grid14 : List Hotspot :=
  [mkRect 0 0 (1/100), mkRect (1/4) 0 (2/100),
   mkRect (1/2) 0 (3/100), mkRect (3/4) 0 (4/100),
   mkRect 0 (1/4) (5/100), mkRect (1/4) (1/4) (6/100),
   mkRect (1/2) (1/4) (7/100), mkRect (3/4) (1/4) (8/100),
   mkRect 0 (1/2) (9/100), mkRect (1/4) (1/2) (10/100),
   mkRect (1/2) (1/2) (11/100), mkRect (3/4) (1/2) (12/100),
   mkRect 0 (3/4) (13/100), mkRect (1/4) (3/4) (14/100)]

/-- A rect hotspot with out-of-range coordinates (x = −0.5, w = 1.5). -/
def wildHot : Hotspot :=
  { shape := "rect".data, x := some (-(1/2)), y := some (1/4),
    w := some (3/2), h := some (1/2), cx := none, cy := none, r := none,
    label := [], severity := [], risks := ["배경 문구".data], suggested_edits := [] }

/-- A text axis assessment with score 12. -/
def dimT : Dim :=
  { name := some "Political", score := some 12, why := [], edits := [], checks := [] }

/-- An image axis assessment, also with score 12 (a cross-source tie). -/
def dimI : Dim :=
  { name := some "Cultural", score := some 12, why := [], edits := [], checks := [] }

/-- The issues string `"hi'` — the substring `hi` is delimited by a
straight double quote on the left and a straight single quote on the
right, a mismatched pair. -/
def cexIssue : List Char := '"' :: 'h' :: 'i' :: [squote]

/-- A flag whose only quote-delimited material sits between mismatched
quote characters. -/
def cexFlag : Flag := { span := [], issues := [cexIssue], edits := [] }

/-! Helper lemmas. -/

lemma clampScore_nonneg (s : Int) : 0 ≤ clampScore s := le_max_left 0 _

lemma clampScore_le25 (s : Int) : clampScore s ≤ 25 :=
  max_le (by norm_num) (min_le_left _ _)

lemma level_of_spec (s : Int) :
    level_of s ∈ LEVELS.map (fun b => b.2.2) ∧ level_of s ≠ "—" := by
  have h1 := clampScore_nonneg s
  have h2 := clampScore_le25 s
  unfold level_of
  generalize ht : clampScore s = t
  rw [ht] at h1 h2
  interval_cases t <;> decide

/-! C1. -/

/-- C1: for every integer score, `level_of` returns one of the five
level names of `LEVELS` and never the sentinel `"—"` (so the sentinel
branch is unreachable for clamped scores), and for every score in
[0, 25] exactly one band of `LEVELS` contains it: the five bands are
mutually exclusive and jointly exhaustive over [0, 25]. -/
theorem C1_level_bands_partition :
    (∀ s : Int, level_of s ∈ LEVELS.map (fun b => b.2.2) ∧ level_of s ≠ "—") ∧
    (∀ s : Int, 0 ≤ s → s ≤ 25 →
      LEVELS.countP (fun b => decide (b.1 ≤ s) && decide (s ≤ b.2.1)) = 1) := by
  refine ⟨level_of_spec, ?_⟩
  intro s h1 h2
  interval_cases s <;> decide

/-- Witness for C1 at the concrete score 7 (band 6-10). -/
theorem C1_level_bands_partition_witness :
    LEVELS.countP (fun b => decide (b.1 ≤ (7 : Int)) && decide ((7 : Int) ≤ b.2.1)) = 1 :=
  C1_level_bands_partition.2 7 (by decide) (by decide)

/-! C2. -/

unseal Rat.mul Rat.sub Rat.inv Rat.add in
/-- C2 (the failing input): `hotA` and `hotB` match (IoU = 1 > 0.55),
their `risks` merge without duplicates, but the merged
`suggested_edits` contains the shared edit twice — the incoming
entry's edits are appended without going through the set, so the
result is NOT a duplicate-free set union as the claim states. -/
theorem C2_merge_duplicates_suggested_edits :
    hotMatch (_bbox hotB) (_bbox hotA) = true ∧
    (_merge hotA hotB).risks = ["차별 오해 소지".data, "정치적 민감성".data] ∧
    (_merge hotA hotB).suggested_edits = ["문구 수정".data, "문구 수정".data] ∧
    ¬ (_merge hotA hotB).suggested_edits.Nodup := by
  refine ⟨by decide, by decide, by decide, by decide⟩

/-! C10. -/

lemma filterMap_toHot_filter (l : List Entry) :
    (l.filter Entry.isDict).filterMap Entry.toHot = l.filterMap Entry.toHot := by
  induction l with
  | nil => rfl
  | cons e t ih => cases e <;> simp [Entry.isDict, Entry.toHot, ih]

/-- C10: `dedupe_hotspots` only sees the dict entries of its input:
its output on any list equals its output on the sublist of dict
entries, and inserting a non-dict entry (string, number, `None`)
anywhere leaves the output unchanged. -/
theorem C10_non_dicts_ignored :
    (∀ l : List Entry, dedupe_hotspots l = dedupe_hotspots (l.filter Entry.isDict)) ∧
    (∀ (l₁ l₂ : List Entry) (e : Entry), e.isDict = false →
      dedupe_hotspots (l₁ ++ e :: l₂) = dedupe_hotspots (l₁ ++ l₂)) := by
  constructor
  · intro l
    unfold dedupe_hotspots
    rw [filterMap_toHot_filter]
  · intro l₁ l₂ e he
    unfold dedupe_hotspots
    cases e with
    | dict h => simp [Entry.isDict] at he
    | nonDict => simp [List.filterMap_append, Entry.toHot]

/-- Witness for C10: a lone non-dict entry yields the empty output. -/
theorem C10_non_dicts_ignored_witness :
    dedupe_hotspots [Entry.nonDict] = dedupe_hotspots [] :=
  C10_non_dicts_ignored.2 [] [] Entry.nonDict rfl

/-! Aggregator helper lemmas: `minBy` returns the first element of
minimum score. -/

lemma minBy_score_le_init (ds : List Dim) : ∀ m, dimScore (minBy m ds) ≤ dimScore m := by
  induction ds with
  | nil => intro m; simp [minBy]
  | cons d t ih =>
    intro m
    rw [minBy]
    split
    · exact le_trans (ih d) (le_of_lt (by assumption))
    · exact ih m

lemma minBy_score_le_mem (ds : List Dim) :
    ∀ m, ∀ d ∈ ds, dimScore (minBy m ds) ≤ dimScore d := by
  induction ds with
  | nil => intro m d hd; simp at hd
  | cons d' t ih =>
    intro m d hd
    rw [minBy]
    rcases List.mem_cons.1 hd with rfl | hdt
    · split
      · exact minBy_score_le_init t d
      · exact le_trans (minBy_score_le_init t m) (not_lt.1 (by assumption))
    · split
      · exact ih d' d hdt
      · exact ih m d hdt

lemma minBy_eq_of_score_eq (ds : List Dim) :
    ∀ m, dimScore (minBy m ds) = dimScore m → minBy m ds = m := by
  induction ds with
  | nil => intro m _; rfl
  | cons d t ih =>
    intro m h
    rw [minBy] at h ⊢
    by_cases hc : dimScore d < dimScore m
    · rw [if_pos hc] at h ⊢
      exact absurd h (ne_of_lt (lt_of_le_of_lt (minBy_score_le_init t d) hc))
    · rw [if_neg hc] at h ⊢
      exact ih m h

lemma minBy_mem_cons (ds : List Dim) : ∀ m, minBy m ds ∈ m :: ds := by
  induction ds with
  | nil => intro m; simp [minBy]
  | cons d t ih =>
    intro m
    rw [minBy]
    by_cases hc : dimScore d < dimScore m
    · rw [if_pos hc]
      exact List.mem_cons_of_mem m (ih d)
    · rw [if_neg hc]
      rcases List.mem_cons.1 (ih m) with h | h
      · rw [h]; exact List.mem_cons_self _ _
      · exact List.mem_cons_of_mem m (List.mem_cons_of_mem d h)

lemma minBy_first_inner (t : List Dim) :
    ∀ m, dimScore (minBy m t) < dimScore m →
      t.find? (fun x => dimScore x == dimScore (minBy m t)) = some (minBy m t) := by
  induction t with
  | nil => intro m h; rw [minBy] at h; exact absurd h (lt_irrefl _)
  | cons d t' ih =>
    intro m h
    rw [minBy] at h ⊢
    by_cases hc : dimScore d < dimScore m
    · rw [if_pos hc] at h ⊢
      by_cases he : dimScore (minBy d t') = dimScore d
      · rw [minBy_eq_of_score_eq t' d he]
        exact List.find?_cons_of_pos _ (by simp)
      · have hlt : dimScore (minBy d t') < dimScore d :=
          lt_of_le_of_ne (minBy_score_le_init t' d) he
        rw [List.find?_cons_of_neg _ (by simp [hlt.ne'])]
        exact ih d hlt
    · rw [if_neg hc] at h ⊢
      have hmd : dimScore m ≤ dimScore d := not_lt.1 hc
      have hlt : dimScore (minBy m t') < dimScore d := lt_of_lt_of_le h hmd
      rw [List.find?_cons_of_neg _ (by simp [hlt.ne'])]
      exact ih m h

lemma find_first_min (ds : List Dim) (m : Dim) :
    (m :: ds).find? (fun x => dimScore x == dimScore (minBy m ds)) = some (minBy m ds) := by
  by_cases he : dimScore (minBy m ds) = dimScore m
  · rw [minBy_eq_of_score_eq ds m he]
    exact List.find?_cons_of_pos _ (by simp)
  · have hlt : dimScore (minBy m ds) < dimScore m :=
      lt_of_le_of_ne (minBy_score_le_init ds m) he
    rw [List.find?_cons_of_neg _ (by simp [hlt.ne'])]
    exact minBy_first_inner ds m hlt

lemma worst_src_eq (tds ids : List Dim) :
    (overall_from_text_image tds ids).worst_src =
      if (min_dim tds).2.1 ≤ (min_dim ids).2.1 then "텍스트" else "이미지" := by
  by_cases hc : (min_dim tds).2.1 ≤ (min_dim ids).2.1 <;>
    simp [overall_from_text_image, hc]

lemma overall_level_eq (tds ids : List Dim) :
    (overall_from_text_image tds ids).level =
      level_of ((overall_from_text_image tds ids).worst_score) := rfl

/-! C6. -/

/-- C6: on a tie of the two minima the worst source is `"텍스트"`
(text); generally text wins exactly when its minimum is ≤ the image
minimum, image wins otherwise; within a list, `min_dim` returns the
minimum score and the first assessment attaining it (`find?` with the
minimum score finds exactly that element). -/
theorem C6_overall_tie_favors_text (tds ids : List Dim)
    (ht : tds ≠ []) (hi : ids ≠ []) :
    ((min_dim tds).2.1 = (min_dim ids).2.1 →
      (overall_from_text_image tds ids).worst_src = "텍스트") ∧
    ((min_dim tds).2.1 ≤ (min_dim ids).2.1 →
      (overall_from_text_image tds ids).worst_src = "텍스트") ∧
    ((min_dim ids).2.1 < (min_dim tds).2.1 →
      (overall_from_text_image tds ids).worst_src = "이미지") ∧
    (∀ d ∈ tds, (min_dim tds).2.1 ≤ dimScore d) ∧
    (∀ d ∈ ids, (min_dim ids).2.1 ≤ dimScore d) ∧
    (∃ m ∈ tds, min_dim tds = (m.name.getD "", dimScore m, level_of (dimScore m)) ∧
      tds.find? (fun x => dimScore x == dimScore m) = some m) ∧
    (∃ m ∈ ids, min_dim ids = (m.name.getD "", dimScore m, level_of (dimScore m)) ∧
      ids.find? (fun x => dimScore x == dimScore m) = some m) := by
  obtain ⟨d, ds, rfl⟩ := List.exists_cons_of_ne_nil ht
  obtain ⟨e, es, rfl⟩ := List.exists_cons_of_ne_nil hi
  refine ⟨?_, ?_, ?_, ?_, ?_, ?_, ?_⟩
  · intro h; rw [worst_src_eq, if_pos (le_of_eq h)]
  · intro h; rw [worst_src_eq, if_pos h]
  · intro h; rw [worst_src_eq, if_neg (not_le.2 h)]
  · intro x hx
    rw [min_dim]
    rcases List.mem_cons.1 hx with rfl | hxs
    · exact minBy_score_le_init ds x
    · exact minBy_score_le_mem ds d x hxs
  · intro x hx
    rw [min_dim]
    rcases List.mem_cons.1 hx with rfl | hxs
    · exact minBy_score_le_init es x
    · exact minBy_score_le_mem es e x hxs
  · exact ⟨minBy d ds, minBy_mem_cons ds d, rfl, find_first_min ds d⟩
  · exact ⟨minBy e es, minBy_mem_cons es e, rfl, find_first_min es e⟩

/-- Witness for C6 at a concrete cross-source tie (both minima 12). -/
theorem C6_overall_tie_favors_text_witness :
    (overall_from_text_image [dimT] [dimI]).worst_src = "텍스트" :=
  (C6_overall_tie_favors_text [dimT] [dimI] (List.cons_ne_nil _ _)
    (List.cons_ne_nil _ _)).1 (by decide)

/-! C7. -/

/-- C7: the verdict derivation is total and well-formed on every pair
of axis lists: the worst source is always one of the two source names,
the level is always one of the five `LEVELS` names and is derived from
the worst score via `level_of`; the empty list yields the sentinel
`("", 25, "—")` inside `min_dim`, and two empty lists produce the
fully defaulted verdict. -/
theorem C7_overall_total (tds ids : List Dim) :
    (overall_from_text_image tds ids).worst_src ∈ (["텍스트", "이미지"] : List String) ∧
    (overall_from_text_image tds ids).level ∈ LEVELS.map (fun b => b.2.2) ∧
    (overall_from_text_image tds ids).level =
      level_of ((overall_from_text_image tds ids).worst_score) ∧
    min_dim [] = ("", 25, "—") ∧
    (tds = [] → ids = [] →
      overall_from_text_image tds ids =
        { level := "매우 안전", worst_axis := "", worst_src := "텍스트",
          worst_score := 25, bg := "#16A34A", emoji := "✅",
          summary := "전반적으로 매우 안전합니다. 모든 축이 21점 이상." }) := by
  refine ⟨?_, ?_, overall_level_eq tds ids, rfl, ?_⟩
  · rw [worst_src_eq]; split <;> simp
  · rw [overall_level_eq]; exact (level_of_spec _).1
  · rintro rfl rfl; decide

/-- Witness for C7 at the two empty lists. -/
theorem C7_overall_total_witness :
    overall_from_text_image [] [] =
      { level := "매우 안전", worst_axis := "", worst_src := "텍스트",
        worst_score := 25, bg := "#16A34A", emoji := "✅",
        summary := "전반적으로 매우 안전합니다. 모든 축이 21점 이상." } :=
  (C7_overall_total [] []).2.2.2.2 rfl rfl

/-! C4 helper lemmas: the dedupe loop only ever stores clamped
geometry — new entries are clamped on insertion and merging copies the
kept entry's geometry unchanged. -/

lemma optIn01b_map_clamp (o : Option ℚ) : optIn01b (o.map clampQ) = true := by
  cases o with
  | none => rfl
  | some v =>
    simp only [optIn01b, Option.map_some', Option.all_some, Bool.and_eq_true,
      decide_eq_true_eq]
    exact ⟨le_max_left 0 _, max_le zero_le_one (min_le_left _ _)⟩

lemma clampHot_in01 (h : Hotspot) : geomIn01b (clampHot h) = true := by
  simp only [geomIn01b, clampHot, Bool.and_eq_true]
  exact ⟨⟨⟨⟨⟨⟨optIn01b_map_clamp _, optIn01b_map_clamp _⟩, optIn01b_map_clamp _⟩,
    optIn01b_map_clamp _⟩, optIn01b_map_clamp _⟩, optIn01b_map_clamp _⟩,
    optIn01b_map_clamp _⟩

lemma merge_geomIn01b (k h : Hotspot) : geomIn01b (_merge k h) = geomIn01b k := rfl

lemma tryMerge_mem (h : Hotspot) :
    ∀ (kept kept2 : List Hotspot), tryMerge h kept = some kept2 →
      ∀ x ∈ kept2, x ∈ kept ∨ ∃ k ∈ kept, x = _merge k h := by
  intro kept
  induction kept with
  | nil => intro kept2 he; simp [tryMerge] at he
  | cons k ks ih =>
    intro kept2 he x hx
    rw [tryMerge] at he
    by_cases hm : hotMatch (_bbox h) (_bbox k)
    · rw [if_pos hm] at he
      cases he
      rcases List.mem_cons.1 hx with rfl | hxs
      · exact Or.inr ⟨k, List.mem_cons_self _ _, rfl⟩
      · exact Or.inl (List.mem_cons_of_mem _ hxs)
    · rw [if_neg hm] at he
      obtain ⟨l2, hl2, rfl⟩ := Option.map_eq_some'.1 he
      rcases List.mem_cons.1 hx with rfl | hxs
      · exact Or.inl (List.mem_cons_self _ _)
      · rcases ih l2 hl2 x hxs with hin | ⟨k', hk', rfl⟩
        · exact Or.inl (List.mem_cons_of_mem _ hin)
        · exact Or.inr ⟨k', List.mem_cons_of_mem _ hk', rfl⟩

lemma foldl_dedupe_in01 :
    ∀ (rest kept : List Hotspot), (∀ k ∈ kept, geomIn01b k = true) →
      ∀ x ∈ rest.foldl dedupeStep kept, geomIn01b x = true := by
  intro rest
  induction rest with
  | nil => intro kept hk x hx; rw [List.foldl_nil] at hx; exact hk x hx
  | cons h t ih =>
    intro kept hk x hx
    rw [List.foldl_cons] at hx
    refine ih _ ?_ x hx
    intro k hkmem
    cases htm : tryMerge h kept with
    | some kept2 =>
      simp only [dedupeStep, htm] at hkmem
      rcases tryMerge_mem h kept kept2 htm k hkmem with hin | ⟨k', hk', rfl⟩
      · exact hk k hin
      · rw [merge_geomIn01b]; exact hk k' hk'
    | none =>
      simp only [dedupeStep, htm] at hkmem
      rcases List.mem_append.1 hkmem with hin | hsing
      · exact hk k hin
      · rw [List.mem_singleton.1 hsing]; exact clampHot_in01 h

/-! C4. -/

/-- C4: every geometry field present on any hotspot returned by
`dedupe_hotspots` — merged entries included — lies in [0, 1]. -/
theorem C4_dedupe_geometry_clamped (l : List Entry) (hh : Hotspot)
    (hmem : hh ∈ dedupe_hotspots l) : geomIn01b hh = true := by
  unfold dedupe_hotspots at hmem
  exact foldl_dedupe_in01 _ [] (by intro k hk; simp at hk) hh
    (List.take_subset _ _ hmem)

/-- Witness for C4: a rect hotspot with x = −0.5, w = 1.5 passes
through dedupe and comes out clamped into the unit square. -/
theorem C4_dedupe_geometry_clamped_witness :
    geomIn01b (clampHot wildHot) = true :=
  C4_dedupe_geometry_clamped [Entry.dict wildHot] (clampHot wildHot)
    (by simp [dedupe_hotspots, Entry.toHot, dedupeStep, tryMerge])

/-! C3 helper lemmas: on pairwise non-matching, in-range input the
dedupe loop keeps everything, in sorted order. -/

lemma filterMap_toHot_map (hs : List Hotspot) :
    (hs.map Entry.dict).filterMap Entry.toHot = hs := by
  induction hs with
  | nil => rfl
  | cons h t ih => simp [Entry.toHot, ih]

lemma _iou_comm (b1 b2 : BBox) : _iou b1 b2 = _iou b2 b1 := by
  simp only [_iou]
  rw [max_comm b1.x1 b2.x1, max_comm b1.y1 b2.y1, min_comm b1.x2 b2.x2,
    min_comm b1.y2 b2.y2, add_comm (_area b1) (_area b2)]

lemma _centerdist_sq_comm (b1 b2 : BBox) : _centerdist_sq b1 b2 = _centerdist_sq b2 b1 := by
  simp only [_centerdist_sq]
  ring

lemma hotMatch_comm (b1 b2 : BBox) : hotMatch b1 b2 = hotMatch b2 b1 := by
  simp only [hotMatch]
  rw [_iou_comm, _centerdist_sq_comm]

lemma tryMerge_none (h : Hotspot) :
    ∀ kept, (∀ k ∈ kept, hotMatch (_bbox h) (_bbox k) = false) →
      tryMerge h kept = none := by
  intro kept
  induction kept with
  | nil => intro _; rfl
  | cons k ks ih =>
    intro hall
    rw [tryMerge, if_neg (by simp [hall k (List.mem_cons_self _ _)]),
      ih (fun k' hk' => hall k' (List.mem_cons_of_mem _ hk'))]
    rfl

lemma clampQ_id (v : ℚ) (h0 : 0 ≤ v) (h1 : v ≤ 1) : clampQ v = v := by
  unfold clampQ
  rw [min_eq_right h1, max_eq_right h0]

lemma optMap_clamp_id (o : Option ℚ) (ho : optIn01b o = true) : o.map clampQ = o := by
  cases o with
  | none => rfl
  | some v =>
    simp only [optIn01b, Option.all_some, Bool.and_eq_true, decide_eq_true_eq] at ho
    simp [clampQ_id v ho.1 ho.2]

lemma clampHot_id (h : Hotspot) (hin : geomIn01b h = true) : clampHot h = h := by
  simp only [geomIn01b, Bool.and_eq_true] at hin
  obtain ⟨⟨⟨⟨⟨⟨hx, hy⟩, hw⟩, hh⟩, hcx⟩, hcy⟩, hr⟩ := hin
  unfold clampHot
  rw [optMap_clamp_id _ hx, optMap_clamp_id _ hy, optMap_clamp_id _ hw,
    optMap_clamp_id _ hh, optMap_clamp_id _ hcx, optMap_clamp_id _ hcy,
    optMap_clamp_id _ hr]

lemma foldl_no_match :
    ∀ (rest kept : List Hotspot),
      (∀ h ∈ rest, ∀ k ∈ kept, hotMatch (_bbox h) (_bbox k) = false) →
      rest.Pairwise (fun a b => hotMatch (_bbox b) (_bbox a) = false) →
      (∀ h ∈ rest, clampHot h = h) →
      rest.foldl dedupeStep kept = kept ++ rest := by
  intro rest
  induction rest with
  | nil => intro kept _ _ _; simp
  | cons h t ih =>
    intro kept hcross hpw hcl
    rw [List.foldl_cons]
    have hstep : dedupeStep kept h = kept ++ [h] := by
      unfold dedupeStep
      rw [tryMerge_none h kept (hcross h (List.mem_cons_self _ _)),
        hcl h (List.mem_cons_self _ _)]
    rw [hstep, ih (kept ++ [h]) ?_ (List.pairwise_cons.1 hpw).2
      (fun h' hh' => hcl h' (List.mem_cons_of_mem _ hh'))]
    · simp
    · intro h' hh' k hk
      rcases List.mem_append.1 hk with hk1 | hk2
      · exact hcross h' (List.mem_cons_of_mem _ hh') k hk1
      · rw [List.mem_singleton.1 hk2]
        exact (List.pairwise_cons.1 hpw).1 h' hh'

lemma areaDesc_trans : ∀ (a b c : Hotspot), areaDesc a b → areaDesc b c → areaDesc a c := by
  intro a b c hab hbc
  simp only [areaDesc, decide_eq_true_eq] at *
  exact le_trans hbc hab

lemma areaDesc_total : ∀ (a b : Hotspot), areaDesc a b || areaDesc b a := by
  intro a b
  simp only [areaDesc, Bool.or_eq_true, decide_eq_true_eq]
  exact le_total _ _

/-! C3. -/

/-- C3: `dedupe_hotspots` always returns at most 12 entries; on 14
pairwise non-matching hotspots of pairwise distinct areas with
geometry inside the unit square, the output is exactly the first 12 of
the area-descending sort — 12 entries, in area-descending order, all
from the input, each of strictly larger area than every dropped
input. -/
theorem C3_dedupe_truncates_to_12 :
    (∀ l : List Entry, (dedupe_hotspots l).length ≤ 12) ∧
    (∀ hs : List Hotspot, hs.length = 14 →
      hs.Pairwise (fun a b => _area (_bbox a) ≠ _area (_bbox b)) →
      hs.Pairwise (fun a b => hotMatch (_bbox b) (_bbox a) = false) →
      (∀ h ∈ hs, geomIn01b h = true) →
      dedupe_hotspots (hs.map Entry.dict) = (hs.mergeSort areaDesc).take 12 ∧
      (dedupe_hotspots (hs.map Entry.dict)).length = 12 ∧
      (dedupe_hotspots (hs.map Entry.dict)).Pairwise
        (fun a b => _area (_bbox b) ≤ _area (_bbox a)) ∧
      (∀ k ∈ dedupe_hotspots (hs.map Entry.dict), k ∈ hs) ∧
      (∀ h ∈ hs, h ∉ dedupe_hotspots (hs.map Entry.dict) →
        ∀ k ∈ dedupe_hotspots (hs.map Entry.dict),
          _area (_bbox h) < _area (_bbox k))) := by
  constructor
  · intro l
    unfold dedupe_hotspots
    exact List.length_take_le _ _
  · intro hs h14 hdist hnm hin
    have hperm : List.Perm (hs.mergeSort areaDesc) hs := List.mergeSort_perm hs areaDesc
    have hnm' : (hs.mergeSort areaDesc).Pairwise
        (fun a b => hotMatch (_bbox b) (_bbox a) = false) :=
      hnm.perm hperm.symm (fun {a b} hab => by rw [hotMatch_comm]; exact hab)
    have hdist' : (hs.mergeSort areaDesc).Pairwise
        (fun a b => _area (_bbox a) ≠ _area (_bbox b)) :=
      hdist.perm hperm.symm (fun {a b} hab => Ne.symm hab)
    have hin' : ∀ h ∈ hs.mergeSort areaDesc, geomIn01b h = true :=
      fun h hh => hin h (List.mem_mergeSort.1 hh)
    have heq : dedupe_hotspots (hs.map Entry.dict) = (hs.mergeSort areaDesc).take 12 := by
      simp only [dedupe_hotspots]
      rw [filterMap_toHot_map,
        foldl_no_match (hs.mergeSort areaDesc) [] (by intro h _ k hk; simp at hk)
          hnm' (fun h hh => clampHot_id h (hin' h hh)),
        List.nil_append]
    have hlen : (hs.mergeSort areaDesc).length = 14 := by
      rw [List.length_mergeSort]
      exact h14
    have hsorted : (hs.mergeSort areaDesc).Pairwise
        (fun a b => _area (_bbox b) ≤ _area (_bbox a)) := by
      have hs1 : (hs.mergeSort areaDesc).Pairwise (fun a b => areaDesc a b = true) :=
        List.sorted_mergeSort areaDesc_trans areaDesc_total hs
      exact hs1.imp (fun {a b} hab => by
        simpa only [areaDesc, decide_eq_true_eq] using hab)
    refine ⟨heq, ?_, ?_, ?_, ?_⟩
    · rw [heq, List.length_take, hlen]
      rfl
    · rw [heq]
      exact List.Pairwise.sublist (List.take_sublist _ _) hsorted
    · intro k hk
      rw [heq] at hk
      exact List.mem_mergeSort.1 (List.take_subset _ _ hk)
    · intro h hh hnot k hk
      rw [heq] at hnot hk
      have hmem : h ∈ hs.mergeSort areaDesc := List.mem_mergeSort.2 hh
      rw [← List.take_append_drop 12 (hs.mergeSort areaDesc)] at hmem
      rcases List.mem_append.1 hmem with h1 | h2
      · exact absurd h1 hnot
      · have hPa : ∀ a ∈ (hs.mergeSort areaDesc).take 12,
            ∀ b ∈ (hs.mergeSort areaDesc).drop 12,
              _area (_bbox b) ≤ _area (_bbox a) := by
          have hSrt := hsorted
          rw [← List.take_append_drop 12 (hs.mergeSort areaDesc)] at hSrt
          exact (List.pairwise_append.1 hSrt).2.2
        have hPn : ∀ a ∈ (hs.mergeSort areaDesc).take 12,
            ∀ b ∈ (hs.mergeSort areaDesc).drop 12,
              _area (_bbox a) ≠ _area (_bbox b) := by
          have hd := hdist'
          rw [← List.take_append_drop 12 (hs.mergeSort areaDesc)] at hd
          exact (List.pairwise_append.1 hd).2.2
        exact lt_of_le_of_ne (hPa k hk h h2) (Ne.symm (hPn k hk h h2))

unseal Rat.mul Rat.sub Rat.inv Rat.add in
/-- Witness for C3: the 14-hotspot grid yields exactly 12 entries. -/
theorem C3_dedupe_truncates_to_12_witness :
    (dedupe_hotspots (grid14.map Entry.dict)).length = 12 :=
  ((C3_dedupe_truncates_to_12.2 grid14 (by decide) (by decide) (by decide)
    (by decide)).2).1

/-! C5 helper lemmas: `strip_circled` is idempotent because a
collapsed string has no adjacent whitespace, a trimmed string has no
leading/trailing whitespace, and the circled characters are gone. -/

lemma cg_true_cons (c : Char) (cs : List Char) :
    collapseGo true (c :: cs) =
      if isPySpace c then collapseGo true cs else c :: collapseGo false cs := rfl

lemma cg_false_one (c : Char) : collapseGo false [c] = [c] := by
  by_cases h : isPySpace c = true
  · show (if isPySpace c then ([c] : List Char) else c :: collapseGo false []) = [c]
    rw [if_pos h]
  · show (if isPySpace c then ([c] : List Char) else c :: collapseGo false []) = [c]
    rw [if_neg h]
    rfl

lemma cg_false_cons2 (c c2 : Char) (cs2 : List Char) :
    collapseGo false (c :: c2 :: cs2) =
      if isPySpace c then
        (if isPySpace c2 then ' ' :: collapseGo true (c2 :: cs2)
          else c :: collapseGo false (c2 :: cs2))
      else c :: collapseGo false (c2 :: cs2) := rfl

lemma cg_false_cons_nonws {c : Char} (h : isPySpace c = false) (cs : List Char) :
    collapseGo false (c :: cs) = c :: collapseGo false cs := by
  cases cs with
  | nil => rw [cg_false_one]; rfl
  | cons c2 cs2 => rw [cg_false_cons2, if_neg (by simp [h])]

lemma collapseGo_true_headOK :
    ∀ l : List Char, ∀ y ∈ (collapseGo true l).head?, isPySpace y = false := by
  intro l
  induction l with
  | nil => intro y hy; simp [collapseGo] at hy
  | cons c cs ih =>
    intro y hy
    rw [cg_true_cons] at hy
    by_cases hws : isPySpace c = true
    · rw [if_pos hws] at hy
      exact ih y hy
    · rw [if_neg hws] at hy
      simp only [List.head?_cons, Option.mem_def, Option.some.injEq] at hy
      rw [← hy]
      simpa using hws

lemma collapseGo_chain (l : List Char) :
    List.Chain' noWsPair (collapseGo true l) ∧
      List.Chain' noWsPair (collapseGo false l) := by
  induction l with
  | nil => exact ⟨List.chain'_nil, List.chain'_nil⟩
  | cons c cs ih =>
    constructor
    · rw [cg_true_cons]
      by_cases hws : isPySpace c = true
      · rw [if_pos hws]
        exact ih.1
      · rw [if_neg hws]
        exact List.Chain'.cons' ih.2 (fun y _ => Or.inl (by simpa using hws))
    · by_cases hws : isPySpace c = true
      · cases cs with
        | nil => rw [cg_false_one]; exact List.chain'_singleton c
        | cons c2 cs2 =>
          rw [cg_false_cons2, if_pos hws]
          by_cases hws2 : isPySpace c2 = true
          · rw [if_pos hws2]
            exact List.Chain'.cons' ih.1
              (fun y hy => Or.inr (collapseGo_true_headOK _ y hy))
          · rw [if_neg hws2]
            have hw2 : isPySpace c2 = false := by simpa using hws2
            rw [cg_false_cons_nonws hw2]
            refine List.chain'_cons.2 ⟨Or.inr hw2, ?_⟩
            rw [← cg_false_cons_nonws hw2]
            exact ih.2
      · have hw : isPySpace c = false := by simpa using hws
        rw [cg_false_cons_nonws hw]
        exact List.Chain'.cons' ih.2 (fun y _ => Or.inl hw)

lemma collapseGo_id_of_chain :
    ∀ l : List Char, List.Chain' noWsPair l → collapseGo false l = l := by
  intro l
  induction l with
  | nil => intro _; rfl
  | cons c cs ih =>
    intro hch
    by_cases hws : isPySpace c = true
    · cases cs with
      | nil => rw [cg_false_one]
      | cons c2 cs2 =>
        have h12 : noWsPair c c2 := (List.chain'_cons.1 hch).1
        have hws2 : isPySpace c2 = false := by
          rcases h12 with h | h
          · rw [hws] at h; cases h
          · exact h
        rw [cg_false_cons2, if_pos hws, if_neg (by simp [hws2]), ih hch.tail]
    · have hw : isPySpace c = false := by simpa using hws
      rw [cg_false_cons_nonws hw, ih hch.tail]

lemma collapseGo_mem (l : List Char) :
    (∀ c ∈ collapseGo true l, c ∈ l ∨ c = ' ') ∧
      (∀ c ∈ collapseGo false l, c ∈ l ∨ c = ' ') := by
  induction l with
  | nil => constructor <;> intro c hc <;> simp [collapseGo] at hc
  | cons d cs ih =>
    constructor
    · intro c hc
      rw [cg_true_cons] at hc
      by_cases hws : isPySpace d = true
      · rw [if_pos hws] at hc
        rcases ih.1 c hc with h | h
        · exact Or.inl (List.mem_cons_of_mem _ h)
        · exact Or.inr h
      · rw [if_neg hws] at hc
        rcases List.mem_cons.1 hc with rfl | hc2
        · exact Or.inl (List.mem_cons_self _ _)
        · rcases ih.2 c hc2 with h | h
          · exact Or.inl (List.mem_cons_of_mem _ h)
          · exact Or.inr h
    · intro c hc
      by_cases hws : isPySpace d = true
      · cases cs with
        | nil =>
          rw [cg_false_one] at hc
          rw [List.mem_singleton.1 hc]
          exact Or.inl (List.mem_cons_self _ _)
        | cons c2 cs2 =>
          rw [cg_false_cons2, if_pos hws] at hc
          by_cases hws2 : isPySpace c2 = true
          · rw [if_pos hws2] at hc
            rcases List.mem_cons.1 hc with rfl | hc2
            · exact Or.inr rfl
            · rcases ih.1 c hc2 with h | h
              · exact Or.inl (List.mem_cons_of_mem _ h)
              · exact Or.inr h
          · rw [if_neg hws2] at hc
            rcases List.mem_cons.1 hc with rfl | hc2
            · exact Or.inl (List.mem_cons_self _ _)
            · rcases ih.2 c hc2 with h | h
              · exact Or.inl (List.mem_cons_of_mem _ h)
              · exact Or.inr h
      · have hw : isPySpace d = false := by simpa using hws
        rw [cg_false_cons_nonws hw] at hc
        rcases List.mem_cons.1 hc with rfl | hc2
        · exact Or.inl (List.mem_cons_self _ _)
        · rcases ih.2 c hc2 with h | h
          · exact Or.inl (List.mem_cons_of_mem _ h)
          · exact Or.inr h

lemma headOK_dropWhile (l : List Char) :
    ∀ y ∈ (l.dropWhile isPySpace).head?, isPySpace y = false := by
  induction l with
  | nil => intro y hy; simp at hy
  | cons c cs ih =>
    intro y hy
    rw [List.dropWhile_cons] at hy
    by_cases hws : isPySpace c = true
    · rw [if_pos hws] at hy
      exact ih y hy
    · rw [if_neg hws] at hy
      simp only [List.head?_cons, Option.mem_def, Option.some.injEq] at hy
      rw [← hy]
      simpa using hws

lemma ltrim_of_headOK (l : List Char) (h : ∀ y ∈ l.head?, isPySpace y = false) :
    ltrim l = l := by
  cases l with
  | nil => rfl
  | cons c cs =>
    have hc : isPySpace c = false := h c (by simp)
    unfold ltrim
    rw [List.dropWhile_cons, if_neg (by simp [hc])]

lemma rtrim_append (l : List Char) : ∃ t, rtrim l ++ t = l := by
  obtain ⟨t, ht⟩ :=
    (List.dropWhile_suffix isPySpace :
      List.dropWhile isPySpace l.reverse <:+ l.reverse)
  refine ⟨t.reverse, ?_⟩
  unfold rtrim
  rw [← List.reverse_append, ht, List.reverse_reverse]

lemma head_sub_of_append {l₁ t l : List Char} (h : l₁ ++ t = l) :
    ∀ y ∈ l₁.head?, y ∈ l.head? := by
  subst h
  cases l₁ with
  | nil => intro y hy; simp at hy
  | cons c cs => intro y hy; simpa using hy

lemma headOK_pyStrip (l : List Char) :
    ∀ y ∈ (pyStrip l).head?, isPySpace y = false := by
  intro y hy
  obtain ⟨t, ht⟩ := rtrim_append (ltrim l)
  exact headOK_dropWhile l y (head_sub_of_append ht y hy)

lemma rtrim_of_revHeadOK (l : List Char)
    (h : ∀ y ∈ l.reverse.head?, isPySpace y = false) : rtrim l = l := by
  have h1 := ltrim_of_headOK l.reverse h
  unfold ltrim at h1
  unfold rtrim
  rw [h1, List.reverse_reverse]

lemma pyStrip_fix (l : List Char) : pyStrip (pyStrip l) = pyStrip l := by
  have h1 : ltrim (pyStrip l) = pyStrip l := ltrim_of_headOK _ (headOK_pyStrip l)
  have h2 : rtrim (pyStrip l) = pyStrip l := by
    apply rtrim_of_revHeadOK
    intro y hy
    rw [show (pyStrip l).reverse = (ltrim l).reverse.dropWhile isPySpace from by
      unfold pyStrip rtrim; rw [List.reverse_reverse]] at hy
    exact headOK_dropWhile (ltrim l).reverse y hy
  show rtrim (ltrim (pyStrip l)) = pyStrip l
  rw [h1, h2]

lemma chain_ltrim {l : List Char} (h : List.Chain' noWsPair l) :
    List.Chain' noWsPair (ltrim l) :=
  List.Chain'.suffix h (List.dropWhile_suffix _)

lemma chain_rtrim {l : List Char} (h : List.Chain' noWsPair l) :
    List.Chain' noWsPair (rtrim l) := by
  have h1 : List.Chain' (flip noWsPair) l := h.imp (fun {a b} hab => Or.symm hab)
  have h2 : List.Chain' noWsPair l.reverse := List.chain'_reverse.2 h1
  have h3 : List.Chain' noWsPair (l.reverse.dropWhile isPySpace) :=
    List.Chain'.suffix h2 (List.dropWhile_suffix _)
  have h4 : List.Chain' (flip noWsPair) (l.reverse.dropWhile isPySpace) :=
    h3.imp (fun {a b} hab => Or.symm hab)
  exact List.chain'_reverse.2 h4

lemma mem_ltrim {c : Char} {l : List Char} (hc : c ∈ ltrim l) : c ∈ l :=
  List.IsSuffix.subset (List.dropWhile_suffix _) hc

lemma mem_rtrim {c : Char} {l : List Char} (hc : c ∈ rtrim l) : c ∈ l := by
  unfold rtrim at hc
  rw [List.mem_reverse] at hc
  exact List.mem_reverse.1 (List.IsSuffix.subset (List.dropWhile_suffix _) hc)

lemma mem_pyStrip {c : Char} {l : List Char} (hc : c ∈ pyStrip l) : c ∈ l :=
  mem_ltrim (mem_rtrim hc)

lemma strip_circled_fix (l : List Char) :
    strip_circled (strip_circled l) = strip_circled l := by
  have hchain : List.Chain' noWsPair (strip_circled l) :=
    chain_rtrim (chain_ltrim (collapseGo_chain _).2)
  have hnoc : ∀ c ∈ strip_circled l, (!(isCircled c)) = true := by
    intro c hc
    rcases (collapseGo_mem _).2 c (mem_pyStrip hc) with h | h
    · exact (List.mem_filter.1 h).2
    · rw [h]; rfl
  rw [show strip_circled (strip_circled l) =
      pyStrip (collapseGo false ((strip_circled l).filter (fun c => !(isCircled c))))
    from rfl]
  rw [List.filter_eq_self.2 hnoc, collapseGo_id_of_chain _ hchain]
  exact pyStrip_fix _

lemma sanStep_out (x t : List Char) (h : sanStep x = some t) : sanStep t = some t := by
  simp only [sanStep] at h ⊢
  by_cases h1 : strip_circled x = []
  · rw [if_pos h1] at h
    exact Option.noConfusion h
  · rw [if_neg h1] at h
    by_cases h2 : _looks_performance (strip_circled x) = true
    · rw [if_pos h2] at h
      exact Option.noConfusion h
    · rw [if_neg h2] at h
      injection h with h
      subst h
      rw [strip_circled_fix x]
      rw [if_neg h1, if_neg h2]

lemma filterMap_fix {f : List Char → Option (List Char)} :
    ∀ L : List (List Char), (∀ t ∈ L, f t = some t) → L.filterMap f = L := by
  intro L
  induction L with
  | nil => intro _; rfl
  | cons a t ih =>
    intro h
    simp only [List.filterMap_cons, h a (List.mem_cons_self _ _)]
    rw [ih (fun x hx => h x (List.mem_cons_of_mem _ hx))]

/-! C5. -/

/-- C5: `sanitize_lines` is idempotent and never returns the empty
list; when everything is filtered out it returns the single fixed
fallback line, and the fallback itself survives re-sanitization
(`sanitize_lines [FALLBACK] = [FALLBACK]` — the fallback line is
re-established by the fallback branch). -/
theorem C5_sanitize_idempotent (lines : List (List Char)) :
    sanitize_lines (sanitize_lines lines) = sanitize_lines lines ∧
    sanitize_lines lines ≠ [] ∧
    sanitize_lines [FALLBACK] = [FALLBACK] := by
  have hfb : sanitize_lines [FALLBACK] = [FALLBACK] := by decide
  refine ⟨?_, ?_, hfb⟩
  · by_cases h0 : lines.filterMap sanStep = []
    · rw [show sanitize_lines lines = [FALLBACK] from by
        simp only [sanitize_lines]; rw [if_pos h0]]
      exact hfb
    · have heq : sanitize_lines lines = lines.filterMap sanStep := by
        simp only [sanitize_lines]; rw [if_neg h0]
      rw [heq]
      have h1 : (lines.filterMap sanStep).filterMap sanStep = lines.filterMap sanStep :=
        filterMap_fix _ (fun t ht => by
          obtain ⟨x, _, hxt⟩ := List.mem_filterMap.1 ht
          exact sanStep_out x t hxt)
      simp only [sanitize_lines]
      rw [h1, if_neg h0]
  · by_cases h0 : lines.filterMap sanStep = []
    · simp only [sanitize_lines]
      rw [if_pos h0]
      simp
    · simp only [sanitize_lines]
      rw [if_neg h0]
      exact h0

/-! C9 helper lemmas: soundness of the quoted-substring scanner. -/

lemma fq_nil (st : Option (List Char)) : fqGo st [] = [] := by
  cases st <;> rfl

lemma fq_none_cons (c : Char) (cs : List Char) :
    fqGo none (c :: cs) = if isQuote c then fqGo (some []) cs else fqGo none cs := rfl

lemma fq_some_cons (acc : List Char) (c : Char) (cs : List Char) :
    fqGo (some acc) (c :: cs) =
      if isQuote c then (if acc = [] then fqGo (some []) cs else acc :: fqGo none cs)
      else fqGo (some (acc ++ [c])) cs := rfl

lemma quoteDelimited_cons {s cs : List Char} (c : Char)
    (h : QuoteDelimited s cs) : QuoteDelimited s (c :: cs) := by
  obtain ⟨h1, h2, l, q1, q2, r, hq1, hq2, heq⟩ := h
  exact ⟨h1, h2, c :: l, q1, q2, r, hq1, hq2, by rw [heq]; rfl⟩

lemma fqGo_sound :
    ∀ (rest : List Char) (st : Option (List Char)) (s : List Char), s ∈ fqGo st rest →
      (∃ acc, st = some acc ∧ ∃ ext q2 r, s = acc ++ ext ∧
        (∀ c ∈ ext, isQuote c = false) ∧ isQuote q2 = true ∧ s ≠ [] ∧
        rest = ext ++ q2 :: r) ∨
      QuoteDelimited s rest := by
  intro rest
  induction rest with
  | nil => intro st s hs; rw [fq_nil] at hs; simp at hs
  | cons c cs ih =>
    intro st s hs
    cases st with
    | none =>
      rw [fq_none_cons] at hs
      by_cases hq : isQuote c = true
      · rw [if_pos hq] at hs
        rcases ih (some []) s hs with
          ⟨acc, hacc, ext, q2, r, hse, hext, hq2, hne, hrest⟩ | hB
        · injection hacc with hacc
          rw [← hacc, List.nil_append] at hse
          subst hse
          exact Or.inr ⟨hne, hext, [], c, q2, r, hq, hq2, by rw [hrest]; rfl⟩
        · exact Or.inr (quoteDelimited_cons c hB)
      · rw [if_neg hq] at hs
        rcases ih none s hs with ⟨acc, hacc, _⟩ | hB
        · exact Option.noConfusion hacc
        · exact Or.inr (quoteDelimited_cons c hB)
    | some acc =>
      rw [fq_some_cons] at hs
      by_cases hq : isQuote c = true
      · rw [if_pos hq] at hs
        by_cases hae : acc = []
        · rw [if_pos hae] at hs
          subst hae
          rcases ih (some []) s hs with
            ⟨acc2, hacc2, ext, q2, r, hse, hext, hq2, hne, hrest⟩ | hB
          · injection hacc2 with hacc2
            rw [← hacc2, List.nil_append] at hse
            subst hse
            exact Or.inr ⟨hne, hext, [], c, q2, r, hq, hq2, by rw [hrest]; rfl⟩
          · exact Or.inr (quoteDelimited_cons c hB)
        · rw [if_neg hae] at hs
          rcases List.mem_cons.1 hs with rfl | hs2
          · exact Or.inl ⟨s, rfl, [], c, cs, by simp, by intro x hx; simp at hx,
              hq, hae, rfl⟩
          · rcases ih none s hs2 with ⟨acc2, hacc2, _⟩ | hB
            · exact Option.noConfusion hacc2
            · exact Or.inr (quoteDelimited_cons c hB)
      · rw [if_neg hq] at hs
        rcases ih (some (acc ++ [c])) s hs with
          ⟨acc2, hacc2, ext, q2, r, hse, hext, hq2, hne, hrest⟩ | hB
        · injection hacc2 with hacc2
          refine Or.inl ⟨acc, rfl, c :: ext, q2, r, ?_, ?_, hq2, hne, ?_⟩
          · rw [hse, ← hacc2]
            simp
          · intro x hx
            rcases List.mem_cons.1 hx with rfl | hx2
            · simpa using hq
            · exact hext x hx2
          · rw [hrest]
            rfl
        · exact Or.inr (quoteDelimited_cons c hB)

lemma findQuoted_sound {iss s : List Char} (h : s ∈ findQuoted iss) :
    QuoteDelimited s iss := by
  rcases fqGo_sound iss none s h with ⟨acc, hacc, _⟩ | hB
  · exact Option.noConfusion hacc
  · exact hB

lemma mem_dedupKeepFirst {α : Type _} [DecidableEq α] {c : α} :
    ∀ {L : List α}, c ∈ dedupKeepFirst L → c ∈ L := by
  intro L
  induction L with
  | nil => intro h; simp [dedupKeepFirst] at h
  | cons x xs ih =>
    intro h
    rw [dedupKeepFirst] at h
    rcases List.mem_cons.1 h with rfl | h2
    · exact List.mem_cons_self _ _
    · exact List.mem_cons_of_mem _ (ih (List.mem_filter.1 h2).1)

/-! C9. -/

/-- C9 counterexample: in the issues string `"hi'` (straight double
quote on the left, straight single quote on the right) the only
quote-delimited occurrence of `hi` sits between a MISMATCHED pair of
quote characters, yet `hi` is extracted as a candidate span — the
regex accepts any pair of recognized quote characters, so the claim
that mismatched delimiters are not candidates is false. -/
theorem C9_mismatched_quotes_extracted :
    _extract_spans_from_flags [cexFlag] = [['h', 'i']] ∧
    (∀ (q1 q2 : Char) (l r : List Char),
      cexIssue = l ++ q1 :: (['h', 'i'] ++ q2 :: r) → q1 ≠ q2) := by
  constructor
  · have hx : _extract_spans_from_flags [cexFlag] =
        List.mergeSort [['h', 'i']] (fun a b => decide (b.length ≤ a.length)) := rfl
    rw [hx, List.mergeSort_singleton]
  · intro q1 q2 l r heq
    have hlen := congrArg List.length heq
    simp [cexIssue] at hlen
    have hl : l = [] := List.length_eq_zero.1 (by omega)
    have hr : r = [] := List.length_eq_zero.1 (by omega)
    subst hl
    subst hr
    simp [cexIssue, squote] at heq
    obtain ⟨h1, h2⟩ := heq
    rw [← h1, ← h2]
    decide

/-- C9 (amended): every candidate span produced by
`_extract_spans_from_flags` has at least two characters, and comes
from a flag — either it is the flag's stripped `span` field, or it is
the stripped form of a substring of one of the flag's issues strings
that is enclosed between two recognized quote characters (straight
double, straight single, curly double), not necessarily a matching
pair. -/
theorem C9_quote_extraction (flags : List Flag) (s : List Char)
    (hs : s ∈ _extract_spans_from_flags flags) :
    2 ≤ s.length ∧
    ∃ f ∈ flags,
      s = pyStrip f.span ∨
      ∃ iss ∈ f.issues, ∃ m ∈ findQuoted iss,
        s = pyStrip m ∧ QuoteDelimited m iss := by
  have hs2 : s ∈ (dedupKeepFirst ((flags.map (fun f =>
      (let t := pyStrip f.span; if t = [] then [] else [t]) ++
      (f.issues.map (fun iss =>
        (findQuoted iss).filterMap (fun m =>
          let t := pyStrip m
          if t = [] then none else some t))).flatten)).flatten)).filter
        (fun s => decide (2 ≤ s.length)) :=
    List.mem_mergeSort.1 hs
  have hlen : 2 ≤ s.length := by
    have := (List.mem_filter.1 hs2).2
    simpa using this
  have hs3 := mem_dedupKeepFirst (List.mem_filter.1 hs2).1
  obtain ⟨block, hblock, hsblock⟩ := List.mem_flatten.1 hs3
  obtain ⟨f, hf, rfl⟩ := List.mem_map.1 hblock
  refine ⟨hlen, f, hf, ?_⟩
  rcases List.mem_append.1 hsblock with hleft | hright
  · left
    by_cases he : pyStrip f.span = []
    · rw [if_pos he] at hleft
      simp at hleft
    · rw [if_neg he] at hleft
      exact List.mem_singleton.1 hleft
  · right
    obtain ⟨block2, hblock2, hsblock2⟩ := List.mem_flatten.1 hright
    obtain ⟨iss, hiss, rfl⟩ := List.mem_map.1 hblock2
    obtain ⟨m, hm, hms⟩ := List.mem_filterMap.1 hsblock2
    refine ⟨iss, hiss, m, hm, ?_, findQuoted_sound hm⟩
    by_cases he : pyStrip m = []
    · rw [if_pos he] at hms
      exact Option.noConfusion hms
    · rw [if_neg he] at hms
      injection hms with hms
      rw [hms]

/-- Witness for C9 (amended) at the mismatched-quote flag. -/
theorem C9_quote_extraction_witness :
    2 ≤ (['h', 'i'] : List Char).length ∧
    ∃ f ∈ [cexFlag],
      ['h', 'i'] = pyStrip f.span ∨
      ∃ iss ∈ f.issues, ∃ m ∈ findQuoted iss,
        ['h', 'i'] = pyStrip m ∧ QuoteDelimited m iss :=
  C9_quote_extraction [cexFlag] ['h', 'i'] (by
    have hx : _extract_spans_from_flags [cexFlag] =
        List.mergeSort [['h', 'i']] (fun a b => decide (b.length ≤ a.length)) := rfl
    rw [hx, List.mergeSort_singleton]
    exact List.mem_singleton.2 rfl)

/-! C8 helper lemmas, part 1: `html.escape` output is free of raw
markup characters, and every occurrence range found in the caption is
within bounds. -/

lemma htmlEscape_cons (c : Char) (l : List Char) :
    htmlEscape (c :: l) = escChar c ++ htmlEscape l := by
  simp [htmlEscape]

lemma escOK_cons (c : Char) (cs : List Char) :
    escOK (c :: cs) =
      if c == '<' || c == '>' then false
      else if c == '&' then
        (leadsWith "amp;".data cs || leadsWith "lt;".data cs || leadsWith "gt;".data cs ||
          leadsWith "quot;".data cs || leadsWith "#x27;".data cs) && escOK cs
      else escOK cs := rfl

lemma leadsWith_append_self : ∀ (nd rest : List Char), leadsWith nd (nd ++ rest) = true := by
  intro nd
  induction nd with
  | nil => intro rest; rfl
  | cons a as ih => intro rest; simp [leadsWith, ih]

lemma escOK_plain (c : Char) (hc1 : (c == '<' || c == '>') = false)
    (hc2 : (c == '&') = false) {rest : List Char} (h : escOK rest = true) :
    escOK (c :: rest) = true := by
  rw [escOK_cons, if_neg (by simp [hc1]), if_neg (by simp [hc2])]
  exact h

lemma escOK_escChar (c : Char) {rest : List Char} (h : escOK rest = true) :
    escOK (escChar c ++ rest) = true := by
  by_cases h1 : c = '&'
  · subst h1
    rw [show escChar '&' ++ rest = '&' :: ("amp;".data ++ rest) from rfl,
      escOK_cons, if_neg (by decide), if_pos (by decide), leadsWith_append_self]
    simp only [Bool.true_or, Bool.true_and]
    exact escOK_plain 'a' (by decide) (by decide)
      (escOK_plain 'm' (by decide) (by decide)
        (escOK_plain 'p' (by decide) (by decide)
          (escOK_plain ';' (by decide) (by decide) h)))
  · by_cases h2 : c = '<'
    · subst h2
      rw [show escChar '<' ++ rest = '&' :: ("lt;".data ++ rest) from rfl,
        escOK_cons, if_neg (by decide), if_pos (by decide)]
      rw [show leadsWith "amp;".data ("lt;".data ++ rest) = false from rfl,
        leadsWith_append_self]
      simp only [Bool.false_or, Bool.true_or, Bool.true_and]
      exact escOK_plain 'l' (by decide) (by decide)
        (escOK_plain 't' (by decide) (by decide)
          (escOK_plain ';' (by decide) (by decide) h))
    · by_cases h3 : c = '>'
      · subst h3
        rw [show escChar '>' ++ rest = '&' :: ("gt;".data ++ rest) from rfl,
          escOK_cons, if_neg (by decide), if_pos (by decide)]
        rw [show leadsWith "amp;".data ("gt;".data ++ rest) = false from rfl,
          show leadsWith "lt;".data ("gt;".data ++ rest) = false from rfl,
          leadsWith_append_self]
        simp only [Bool.false_or, Bool.true_or, Bool.true_and]
        exact escOK_plain 'g' (by decide) (by decide)
          (escOK_plain 't' (by decide) (by decide)
            (escOK_plain ';' (by decide) (by decide) h))
      · by_cases h4 : c = '"'
        · subst h4
          rw [show escChar '"' ++ rest = '&' :: ("quot;".data ++ rest) from rfl,
            escOK_cons, if_neg (by decide), if_pos (by decide)]
          rw [show leadsWith "amp;".data ("quot;".data ++ rest) = false from rfl,
            show leadsWith "lt;".data ("quot;".data ++ rest) = false from rfl,
            show leadsWith "gt;".data ("quot;".data ++ rest) = false from rfl,
            leadsWith_append_self]
          simp only [Bool.false_or, Bool.true_or, Bool.true_and]
          exact escOK_plain 'q' (by decide) (by decide)
            (escOK_plain 'u' (by decide) (by decide)
              (escOK_plain 'o' (by decide) (by decide)
                (escOK_plain 't' (by decide) (by decide)
                  (escOK_plain ';' (by decide) (by decide) h))))
        · by_cases h5 : c = squote
          · subst h5
            rw [show escChar squote ++ rest = '&' :: ("#x27;".data ++ rest) from rfl,
              escOK_cons, if_neg (by decide), if_pos (by decide)]
            rw [show leadsWith "amp;".data ("#x27;".data ++ rest) = false from rfl,
              show leadsWith "lt;".data ("#x27;".data ++ rest) = false from rfl,
              show leadsWith "gt;".data ("#x27;".data ++ rest) = false from rfl,
              show leadsWith "quot;".data ("#x27;".data ++ rest) = false from rfl,
              leadsWith_append_self]
            simp only [Bool.false_or, Bool.true_or, Bool.true_and]
            exact escOK_plain '#' (by decide) (by decide)
              (escOK_plain 'x' (by decide) (by decide)
                (escOK_plain '2' (by decide) (by decide)
                  (escOK_plain '7' (by decide) (by decide)
                    (escOK_plain ';' (by decide) (by decide) h))))
          · have he : escChar c = [c] := by
              rw [escChar, if_neg (by simp [beq_eq_false_iff_ne.2 h1]),
                if_neg (by simp [beq_eq_false_iff_ne.2 h2]),
                if_neg (by simp [beq_eq_false_iff_ne.2 h3]),
                if_neg (by simp [beq_eq_false_iff_ne.2 h4]),
                if_neg (by simp [beq_eq_false_iff_ne.2 h5])]
            rw [he]
            exact escOK_plain c
              (by simp [beq_eq_false_iff_ne.2 h2, beq_eq_false_iff_ne.2 h3])
              (beq_eq_false_iff_ne.2 h1) h

lemma escOK_htmlEscape (s : List Char) : escOK (htmlEscape s) = true := by
  induction s with
  | nil => rfl
  | cons c cs ih =>
    rw [htmlEscape_cons]
    exact escOK_escChar c ih

lemma matchCI_le_length : ∀ (nd l : List Char), matchCI nd l = true → nd.length ≤ l.length := by
  intro nd
  induction nd with
  | nil => intro l _; simp
  | cons a as ih =>
    intro l h
    cases l with
    | nil => simp [matchCI] at h
    | cons b bs =>
      simp only [matchCI, Bool.and_eq_true] at h
      simpa using ih bs h.2

lemma faGo_bounds (nd : List Char) (hnd : nd ≠ []) :
    ∀ (n : Nat) (l : List Char), l.length ≤ n → ∀ (i : Nat), ∀ se ∈ faGo nd l i,
      i ≤ se.1 ∧ se.1 < se.2 ∧ se.2 ≤ i + l.length := by
  intro n
  induction n with
  | zero =>
    intro l hl i se hse
    rw [List.length_eq_zero.1 (Nat.le_zero.1 hl)] at hse
    rw [faGo] at hse
    simp at hse
  | succ n ih =>
    intro l hl i se hse
    cases l with
    | nil =>
      rw [faGo] at hse
      simp at hse
    | cons c cs =>
      have hpos : 0 < nd.length := List.length_pos.2 hnd
      rw [faGo] at hse
      by_cases hm : (matchCI nd (c :: cs) && decide (nd ≠ [])) = true
      · rw [if_pos hm] at hse
        have hmand := hm
        rw [Bool.and_eq_true] at hmand
        have hle : nd.length ≤ (c :: cs).length :=
          matchCI_le_length nd (c :: cs) hmand.1
        rcases List.mem_cons.1 hse with rfl | hse2
        · exact ⟨le_refl _, by omega, by omega⟩
        · have hdl : (cs.drop (nd.length - 1)).length ≤ n := by
            rw [List.length_drop]
            simp only [List.length_cons] at hl
            omega
          have hrec := ih (cs.drop (nd.length - 1)) hdl (i + nd.length) se hse2
          have h22 := hrec.2.2
          rw [List.length_drop] at h22
          refine ⟨by omega, hrec.2.1, ?_⟩
          simp only [List.length_cons] at hle ⊢
          omega
      · rw [if_neg hm] at hse
        have hcl : cs.length ≤ n := by
          simp only [List.length_cons] at hl
          omega
        have hrec := ih cs hcl (i + 1) se hse
        refine ⟨by omega, hrec.2.1, ?_⟩
        have := hrec.2.2
        simp only [List.length_cons]
        omega

lemma find_all_bounds (text nd : List Char) :
    ∀ se ∈ _find_all_ranges text nd, se.1 ≤ se.2 ∧ se.2 ≤ text.length := by
  intro se hse
  unfold _find_all_ranges at hse
  by_cases hnd : nd = []
  · rw [if_pos hnd] at hse
    simp at hse
  · rw [if_neg hnd] at hse
    have := faGo_bounds nd hnd text.length text (le_refl _) 0 se hse
    exact ⟨le_of_lt this.2.1, by have := this.2.2; omega⟩

/-! C8 helper lemmas, part 2: merged ranges are ordered and separated,
and the parts loop renders exactly the escaped segmentation of the
original text. -/

lemma mrGo_nil (cur : Nat × Nat) : mrGo cur [] = [cur] := rfl

lemma mrGo_cons (cur : Nat × Nat) (s e : Nat) (rest : List (Nat × Nat)) :
    mrGo cur ((s, e) :: rest) =
      if s ≤ cur.2 then mrGo (cur.1, max cur.2 e) rest
      else cur :: mrGo (s, e) rest := rfl

lemma mrGo_head_fst :
    ∀ (rest : List (Nat × Nat)) (cur : Nat × Nat),
      ∃ e2 t, mrGo cur rest = (cur.1, e2) :: t ∧ cur.2 ≤ e2 := by
  intro rest
  induction rest with
  | nil => intro cur; exact ⟨cur.2, [], rfl, le_refl _⟩
  | cons se rest ih =>
    intro cur
    obtain ⟨s, e⟩ := se
    rw [mrGo_cons]
    by_cases hse : s ≤ cur.2
    · rw [if_pos hse]
      obtain ⟨e2, t, heq, hle⟩ := ih (cur.1, max cur.2 e)
      exact ⟨e2, t, heq, le_trans (le_max_left _ _) hle⟩
    · rw [if_neg hse]
      exact ⟨cur.2, mrGo (s, e) rest, rfl, le_refl _⟩

lemma mrGo_spec (len : Nat) :
    ∀ (rest : List (Nat × Nat)) (cur : Nat × Nat),
      cur.1 ≤ cur.2 → cur.2 ≤ len →
      (∀ r ∈ rest, r.1 ≤ r.2 ∧ r.2 ≤ len) →
      (∀ r ∈ mrGo cur rest, r.1 ≤ r.2 ∧ r.2 ≤ len) ∧
      List.Chain' (fun a b : Nat × Nat => a.2 < b.1) (mrGo cur rest) := by
  intro rest
  induction rest with
  | nil =>
    intro cur h1 h2 _
    rw [mrGo_nil]
    constructor
    · intro r hr
      rw [List.mem_singleton.1 hr]
      exact ⟨h1, h2⟩
    · exact List.chain'_singleton cur
  | cons se rest ih =>
    intro cur h1 h2 hrest
    obtain ⟨s, e⟩ := se
    have hhead := hrest (s, e) (List.mem_cons_self _ _)
    have htail : ∀ r ∈ rest, r.1 ≤ r.2 ∧ r.2 ≤ len :=
      fun r hr => hrest r (List.mem_cons_of_mem _ hr)
    rw [mrGo_cons]
    by_cases hse : s ≤ cur.2
    · rw [if_pos hse]
      exact ih (cur.1, max cur.2 e) (le_trans h1 (le_max_left _ _))
        (max_le h2 hhead.2) htail
    · rw [if_neg hse]
      have hrec := ih (s, e) hhead.1 hhead.2 htail
      constructor
      · intro r hr
        rcases List.mem_cons.1 hr with rfl | hr2
        · exact ⟨h1, h2⟩
        · exact hrec.1 r hr2
      · obtain ⟨e2, t, heq, _⟩ := mrGo_head_fst rest (s, e)
        rw [heq]
        refine List.chain'_cons.2 ⟨?_, heq ▸ hrec.2⟩
        show cur.2 < s
        omega

lemma merge_ranges_spec (rs : List (Nat × Nat)) (len : Nat)
    (h : ∀ r ∈ rs, r.1 ≤ r.2 ∧ r.2 ≤ len) :
    (∀ r ∈ _merge_ranges rs, r.1 ≤ r.2 ∧ r.2 ≤ len) ∧
    List.Chain' (fun a b : Nat × Nat => a.2 < b.1) (_merge_ranges rs) := by
  unfold _merge_ranges
  cases hms : rs.mergeSort rangeLe with
  | nil => simp
  | cons r rest =>
    have hmem : ∀ x ∈ r :: rest, x.1 ≤ x.2 ∧ x.2 ≤ len := by
      intro x hx
      exact h x (List.mem_mergeSort.1 (by rw [hms]; exact hx))
    exact mrGo_spec len rest r (hmem r (List.mem_cons_self _ _)).1
      (hmem r (List.mem_cons_self _ _)).2
      (fun x hx => hmem x (List.mem_cons_of_mem _ hx))

lemma segify_nil (orig : List Char) (last : Nat) :
    segify orig last [] =
      if last < orig.length then [(false, orig.drop last)] else [] := rfl

lemma segify_cons (orig : List Char) (last s e : Nat) (rest : List (Nat × Nat)) :
    segify orig last ((s, e) :: rest) =
      (if last < s then [(false, sliceL orig last s)] else []) ++
      (true, sliceL orig s e) :: segify orig e rest := rfl

lemma buildParts_nil (orig : List Char) (last : Nat) :
    buildParts orig last [] =
      if last < orig.length then htmlEscape (orig.drop last) else [] := rfl

lemma buildParts_cons (orig : List Char) (last s e : Nat) (rest : List (Nat × Nat)) :
    buildParts orig last ((s, e) :: rest) =
      (if last < s then htmlEscape (sliceL orig last s) else []) ++
      spanOpen ++ htmlEscape (sliceL orig s e) ++ spanClose ++
      buildParts orig e rest := rfl

lemma buildParts_eq_segify (orig : List Char) :
    ∀ (mer : List (Nat × Nat)) (last : Nat),
      buildParts orig last mer = ((segify orig last mer).map renderSeg).flatten := by
  intro mer
  induction mer with
  | nil =>
    intro last
    rw [buildParts_nil, segify_nil]
    by_cases hlt : last < orig.length
    · rw [if_pos hlt, if_pos hlt]
      simp [renderSeg]
    · rw [if_neg hlt, if_neg hlt]
      rfl
  | cons se rest ih =>
    intro last
    obtain ⟨s, e⟩ := se
    rw [buildParts_cons, segify_cons]
    by_cases hls : last < s
    · rw [if_pos hls, if_pos hls]
      simp only [List.map_append, List.flatten_append, List.map_cons,
        List.flatten_cons, List.map_nil, List.flatten_nil, renderSeg]
      rw [ih]
      simp [List.append_assoc]
    · rw [if_neg hls, if_neg hls]
      simp only [List.nil_append, List.map_cons, List.flatten_cons, renderSeg]
      rw [ih]
      simp [List.append_assoc]

lemma slice_append_drop (l : List Char) (a b : Nat) (hab : a ≤ b) :
    sliceL l a b ++ l.drop b = l.drop a := by
  unfold sliceL
  rw [show l.drop b = (l.drop a).drop (b - a) from by
    rw [List.drop_drop]; congr 1; omega]
  exact List.take_append_drop _ _

lemma segify_flatten_snd (orig : List Char) :
    ∀ (mer : List (Nat × Nat)) (last : Nat),
      (∀ r ∈ mer, r.1 ≤ r.2) →
      List.Chain' (fun a b : Nat × Nat => a.2 < b.1) mer →
      (∀ y ∈ mer.head?, last ≤ y.1) →
      ((segify orig last mer).map Prod.snd).flatten = orig.drop last := by
  intro mer
  induction mer with
  | nil =>
    intro last _ _ _
    rw [segify_nil]
    by_cases hlt : last < orig.length
    · rw [if_pos hlt]
      simp
    · rw [if_neg hlt]
      rw [List.drop_eq_nil_of_le (not_lt.1 hlt)]
      rfl
  | cons se rest ih =>
    intro last hb hch hhd
    obtain ⟨s, e⟩ := se
    have hse : s ≤ e := hb (s, e) (List.mem_cons_self _ _)
    have hlast : last ≤ s := hhd (s, e) (by simp)
    have hrec : ((segify orig e rest).map Prod.snd).flatten = orig.drop e := by
      refine ih e (fun r hr => hb r (List.mem_cons_of_mem _ hr))
        (List.Chain'.tail hch) ?_
      intro y hy
      cases rest with
      | nil => simp at hy
      | cons y2 t2 =>
        simp only [List.head?_cons, Option.mem_def, Option.some.injEq] at hy
        rw [← hy]
        exact le_of_lt (List.chain'_cons.1 hch).1
    rw [segify_cons]
    simp only [List.map_append, List.flatten_append, List.map_cons,
      List.flatten_cons]
    rw [hrec]
    by_cases hls : last < s
    · rw [if_pos hls]
      simp only [List.map_cons, List.map_nil, List.flatten_cons, List.flatten_nil,
        List.append_nil, List.nil_append]
      rw [slice_append_drop orig s e hse,
        slice_append_drop orig last s (le_of_lt hls)]
    · rw [if_neg hls]
      have : last = s := by omega
      subst this
      simp only [List.map_nil, List.flatten_nil, List.nil_append]
      exact slice_append_drop orig last e hse

/-! C8. -/

/-- C8: the caption highlighter is injection-safe.  `html.escape`
output never contains a raw `<` or `>` and every `&` in it starts one
of the five escape entities (`escOK`); and the markup produced by
`highlight_caption` is exactly the div wrapper around a rendering of a
segmentation of the original text in which every literal segment —
highlighted (span-wrapped) or plain — is inserted through
`htmlEscape`; the segments concatenate back to the original text. -/
theorem C8_highlight_escapes (text : List Char) (flags : List Flag) :
    (∀ s : List Char, escOK (htmlEscape s) = true) ∧
    ∃ segs : List (Bool × List Char),
      (segs.map Prod.snd).flatten = text ∧
      highlight_caption text flags =
        divOpen ++ (segs.map renderSeg).flatten ++ divClose := by
  refine ⟨escOK_htmlEscape, ?_⟩
  simp only [highlight_caption]
  by_cases hm : _merge_ranges
      (((_extract_spans_from_flags flags).map
        (fun sp => _find_all_ranges text sp)).flatten) = []
  · rw [if_pos hm]
    refine ⟨[(false, text)], by simp, ?_⟩
    simp [renderSeg]
  · rw [if_neg hm]
    have hraw : ∀ r ∈ ((_extract_spans_from_flags flags).map
        (fun sp => _find_all_ranges text sp)).flatten, r.1 ≤ r.2 ∧ r.2 ≤ text.length := by
      intro r hr
      obtain ⟨block, hblock, hrb⟩ := List.mem_flatten.1 hr
      obtain ⟨sp, _, rfl⟩ := List.mem_map.1 hblock
      exact find_all_bounds text sp r hrb
    have hspec := merge_ranges_spec _ text.length hraw
    refine ⟨segify text 0 (_merge_ranges (((_extract_spans_from_flags flags).map
      (fun sp => _find_all_ranges text sp)).flatten)), ?_, ?_⟩
    · rw [segify_flatten_snd text _ 0 (fun r hr => (hspec.1 r hr).1) hspec.2
        (fun y _ => Nat.zero_le _)]
      rfl
    · rw [buildParts_eq_segify]
